import Mathlib

/-!
A shallow embedding of the core of the ReactiveCache repository
(`src/cache/src`): the type-erased LRU result cache (`cache.rs`), the two
context stacks (`effect_stack.rs`, `memo_stack.rs`), the invalidation
protocol (`observable.rs`), `Memo::get` (`memo.rs`) and `Signal::set`
(`signal.rs`), together with theorems settling the specification claims.

Modelling conventions:
* pointer identity (`*const dyn Observable`, `Weak::ptr_eq`) is a `Nat`;
* the type-erased `Rc<dyn Any>` is a runtime type tag plus a `Nat` payload;
* `Weak::upgrade` success is a fixed predicate `alive` (nothing is dropped
  while a traversal is running, the engine being single threaded);
* Rust panics (`expect`, `assert!`) are modelled as `Except.error`;
* memo closures are modelled as pure producers and effect bodies as opaque
  actions whose invocation is recorded in an event trace — the claims under
  scrutiny quantify over pure closures and speak only about which closures
  and effects the engine runs, never about what the bodies do to the state;
* the recursive invalidation traversal carries explicit fuel: the source
  recursion is not structurally terminating (on a cyclic dependent graph it
  would not return normally), so the theorems about it hypothesise that the
  traversal completed, which any acyclic instance satisfies.
-/

namespace ReactiveCache

/-- Identity of an observable (signal, memo or effect): models the stable
pointer identity used by the source for cache keys and dependency edges. -/
abbrev Ident := Nat

/-- A type-erased cached value (`Rc<dyn Any>` in `cache.rs`): `ty` models the
runtime type (`TypeId`), `val` the payload. -/
structure CVal where
  ty : Nat
  val : Nat
deriving DecidableEq

/-- The global result cache (`static mut CACHE : LruCache<CacheKey, Rc<dyn Any>>`
in `cache.rs`) modelled as an association list ordered most-recently-used
first; keys are observable identities. -/
abbrev Cache := List (Ident × CVal)

/-- cache.rs line 11: `const CACHE_CAP: usize = 128;`. -/
def CACHE_CAP : Nat := 128

/-- Plain association lookup (which entry, if any, sits under a key). -/
def cacheLookup (k : Ident) : Cache → Option CVal
  | [] => none
  | e :: rest => if e.1 = k then some e.2 else cacheLookup k rest

/-- Drop the entry stored under `k` (all positions, though a well-formed
cache holds a key at most once). -/
def cacheEraseKey (k : Ident) (c : Cache) : Cache :=
  c.filter fun e => e.1 != k

/-- `LruCache::get` as `touch` uses it: on a hit the entry is promoted to the
most-recently-used position and its value returned; a miss leaves the cache
unchanged. -/
def cacheGetPromote (k : Ident) (c : Cache) : Option CVal × Cache :=
  match cacheLookup k c with
  | some w => (some w, (k, w) :: cacheEraseKey k c)
  | none => (none, c)

/-- `LruCache::put`: (re)insert at the most-recently-used position, dropping
the least-recently-used entry once the capacity `CACHE_CAP` is exceeded. -/
def cachePut (k : Ident) (w : CVal) (c : Cache) : Cache :=
  ((k, w) :: cacheEraseKey k c).take CACHE_CAP

/-- cache.rs lines 43–45: `remove_from_cache` (`LruCache::pop`). -/
def remove_from_cache (k : Ident) (c : Cache) : Cache :=
  cacheEraseKey k c

/-- effect_stack.rs lines 9–12: one entry of the reaction stack. -/
structure EffectStackEntry where
  effect : Ident
  collecting : Bool
deriving DecidableEq

/-- The global reaction stack, top entry first (the source keeps a `Vec` with
the top at the end; only the LIFO discipline is observable). -/
abbrev EffectStack := List EffectStackEntry

/-- effect_stack.rs lines 16–18: `effect_push`. -/
def effect_push (e : Ident) (collecting : Bool) (s : EffectStack) : EffectStack :=
  ⟨e, collecting⟩ :: s

/-- effect_stack.rs lines 20–22: `effect_peak`. -/
def effect_peak (s : EffectStack) : Option EffectStackEntry :=
  s.head?

/-- The `effect_peak().is_some_and(|e| e.collecting)` test of cache.rs line 23:
is a collecting reaction on top of the reaction stack? -/
def collectingTop (s : EffectStack) : Bool :=
  match effect_peak s with
  | some e => e.collecting
  | none => false

/-- Did a fallible operation return normally (`true`) or panic (`false`)? -/
def exOk {α : Type} : Except String α → Bool
  | .ok _ => true
  | .error _ => false

/-- effect_stack.rs lines 24–36: `effect_pop`.  Popping an empty stack panics
(`expect`), as does a top entry with a different effect identity
(`assert!(Weak::ptr_eq ..)`) or a different collecting flag (`assert_eq!`);
otherwise the matching top entry is removed. -/
def effect_pop (e : Ident) (collecting : Bool) (s : EffectStack) :
    Except String EffectStack :=
  match s with
  | [] => .error "effect stack should not be empty"
  | top :: rest =>
    if top.effect ≠ e then .error "should be the same effect"
    else if top.collecting ≠ collecting then .error "should have the same collecting flag"
    else .ok rest

/-- memo_stack.rs lines 11–13: `push`. -/
def memo_stack_push (m : Ident) (s : List Ident) : List Ident :=
  m :: s

/-- memo_stack.rs lines 19–21: `pop`.  The source delegates to `Vec::pop`,
which returns `None` on an empty vector without panicking, so this operation
never produces an `Except.error`. -/
def memo_stack_pop (s : List Ident) : Except String (Option Ident × List Ident) :=
  match s with
  | [] => .ok (none, [])
  | m :: rest => .ok (some m, rest)

/-- cache.rs lines 16–32: `touch<T>`; `ty` is the type tag a `Memo<T>`
requests.  While the top of the reaction stack is collecting, the lookup is
forced to miss and any entry under the key is removed; otherwise
`LruCache::get` promotes the entry and the result is filtered by
`rc.is::<T>()`. -/
def touch (ty : Nat) (key : Ident) (es : EffectStack) (c : Cache) :
    Option Nat × Cache :=
  if collectingTop es then
    (none, remove_from_cache key c)
  else
    match cacheGetPromote key c with
    | (some w, c') => (if w.ty = ty then some w.val else none, c')
    | (none, c') => (none, c')

/-- cache.rs lines 34–41: `store_in_cache<T>`. -/
def store_in_cache (key : Ident) (ty v : Nat) (c : Cache) : Cache :=
  cachePut key ⟨ty, v⟩ c

/-- State threaded through the memo-side operations: the result cache, both
context stacks, the dependents list of every observable, and a per-memo
count of how often the memo's closure body has executed (observational
instrumentation used to state the memoization claims). -/
structure MState where
  cache : Cache
  effectStack : EffectStack
  memoStack : List Ident
  dependents : Ident → List Ident
  execCount : Ident → Nat

/-- observable.rs lines 22–33: `IObservable::dependency_collection` —
register the memo currently on top of the memo stack in `self`'s dependents
list, unless it is already present. -/
def dependency_collection (self : Ident) (st : MState) : MState :=
  match st.memoStack.head? with
  | some caller =>
    if caller ∈ st.dependents self then st
    else { st with dependents := fun x =>
            if x = self then st.dependents self ++ [caller] else st.dependents x }
  | none => st

/-- memo.rs lines 147–170: `Memo::get`.  The memo's closure is modelled as a
pure producer: `ty m` is the result type tag of memo `m` and `f m` the value
its closure computes; `execCount` counts executions of the closure body.
The push/pop pair on the memo stack cancels out (`(m :: s).tail = s`): the
modelled closure does not itself touch the stacks, matching the claims,
which quantify over pure and independent memos. -/
def memoGet (ty f : Ident → Nat) (m : Ident) (st : MState) : Nat × MState :=
  match touch (ty m) m (dependency_collection m st).effectStack
      (dependency_collection m st).cache with
  | (some v, c) =>
    (v, { dependency_collection m st with
          cache := c,
          memoStack := (memo_stack_push m (dependency_collection m st).memoStack).tail })
  | (none, c) =>
    (f m, { dependency_collection m st with
            cache := store_in_cache m (ty m) (f m) c,
            execCount := fun x =>
              if x = m then (dependency_collection m st).execCount x + 1
              else (dependency_collection m st).execCount x,
            memoStack := (memo_stack_push m (dependency_collection m st).memoStack).tail })

/-- The observable actions `Signal::set` performs, in execution order. -/
inductive Event where
  | removed (m : Ident) : Event
  | stored : Event
  | ranEffect (e : Ident) (collecting : Bool) : Event
deriving DecidableEq

/-- State threaded through the signal-side operations: the signal's current
value, the dependents list of every observable, the signal's registered
effects, the result cache, and the trace of actions performed so far.
Effect bodies are opaque: replaying one is recorded in `trace` (with the
collecting flag pushed for the replay) and changes nothing else. -/
structure SState where
  value : Nat
  dependents : Ident → List Ident
  effects : List Ident
  cache : Cache
  trace : List Event

/-- observable.rs lines 9–19, the body of `IObservable::invalidate` applied
to a dependents list: walk the list; a dead entry (`upgrade` fails) is
pruned; a still-alive dependent `d` is kept, its entry is removed from the
result cache (`remove_from_cache(&d)`), and `d`'s own dependents are
recursively invalidated.  Returns the retained list and the final state.
`fuel` bounds the recursion depth: the source recursion has no such bound
and does not return normally on a cyclic dependent graph. -/
def invalidateFrom (alive : Ident → Bool) :
    Nat → List Ident → SState → Option (List Ident × SState)
  | 0, _, _ => none
  | _ + 1, [], st => some ([], st)
  | fuel + 1, d :: ds, st =>
    if alive d then
      match invalidateFrom alive fuel
          (st.dependents d)
          { st with cache := remove_from_cache d st.cache,
                    trace := st.trace ++ [Event.removed d] } with
      | none => none
      | some (kept, st2) =>
        match invalidateFrom alive fuel ds
            { st2 with dependents := fun y => if y = d then kept else st2.dependents y } with
        | none => none
        | some (kept2, st4) => some (d :: kept2, st4)
    else
      invalidateFrom alive fuel ds st

/-- observable.rs lines 9–19: `IObservable::invalidate` on the observable
`x` — traverse `x`'s dependents and store back the retained list. -/
def observableInvalidate (alive : Ident → Bool) (fuel : Nat) (x : Ident)
    (st : SState) : Option SState :=
  match invalidateFrom alive fuel (st.dependents x) st with
  | none => none
  | some (kept, st') =>
    some { st' with dependents := fun y => if y = x then kept else st'.dependents y }

/-- signal.rs lines 73–83: `Signal::flush_effects` — retain the still-alive
effects, replaying each retained one via `effect::run_untracked` (which
pushes the entry with `collecting = false`); dead entries are pruned. -/
def flush_effects (effAlive : Ident → Bool) (st : SState) : SState :=
  { st with effects := st.effects.filter fun e => effAlive e,
            trace := st.trace ++
              (st.effects.filter fun e => effAlive e).map fun e => Event.ranEffect e false }

/-- signal.rs lines 192–207: `Signal::set`.  If the written value equals the
current one, return `false` with no further action.  Otherwise:
`OnPropertyChanging` (= `invalidate`), store the value, `OnPropertyChanged`
(= `flush_effects`), and return `true`.  `sigId` is the signal's identity
(its dependents list lives at `st.dependents sigId`). -/
def signalSet (alive effAlive : Ident → Bool) (fuel : Nat) (sigId : Ident)
    (v : Nat) (st : SState) : Option (Bool × SState) :=
  if st.value = v then some (false, st)
  else
    match observableInvalidate alive fuel sigId st with
    | none => none
    | some st1 =>
      some (true, flush_effects effAlive
        { st1 with value := v, trace := st1.trace ++ [Event.stored] })

/-! ### Basic lemmas about the cache and the stacks -/

theorem mem_cacheEraseKey {kv : Ident × CVal} {k : Ident} {c : Cache} :
    kv ∈ cacheEraseKey k c ↔ kv ∈ c ∧ kv.1 ≠ k := by
  simp [cacheEraseKey, List.mem_filter]

theorem cacheLookup_eraseKey_self (k : Ident) (c : Cache) :
    cacheLookup k (cacheEraseKey k c) = none := by
  induction c with
  | nil => rfl
  | cons e rest ih =>
    by_cases h : e.1 = k
    · simpa [cacheEraseKey, List.filter_cons, h] using ih
    · simpa [cacheEraseKey, List.filter_cons, h, cacheLookup] using ih

theorem cacheLookup_cons_self (k : Ident) (w : CVal) (c : Cache) :
    cacheLookup k ((k, w) :: c) = some w := by
  simp [cacheLookup]

theorem cacheLookup_put_self (k : Ident) (w : CVal) (c : Cache) :
    cacheLookup k (cachePut k w c) = some w := by
  simp [cachePut, CACHE_CAP, List.take, cacheLookup]

theorem touch_not_collecting_miss {es : EffectStack} {k : Ident} {c : Cache}
    (hcoll : collectingTop es = false) (hlk : cacheLookup k c = none) (ty : Nat) :
    touch ty k es c = (none, c) := by
  simp [touch, hcoll, cacheGetPromote, hlk]

theorem touch_not_collecting_hit {es : EffectStack} {k : Ident} {c : Cache} {w : CVal}
    (hcoll : collectingTop es = false) (hlk : cacheLookup k c = some w) (ty : Nat) :
    touch ty k es c =
      (if w.ty = ty then some w.val else none, (k, w) :: cacheEraseKey k c) := by
  simp [touch, hcoll, cacheGetPromote, hlk]

theorem dependency_collection_cache (m : Ident) (st : MState) :
    (dependency_collection m st).cache = st.cache := by
  unfold dependency_collection
  rcases st.memoStack.head? with _ | caller
  · rfl
  · dsimp only
    split <;> rfl

theorem dependency_collection_effectStack (m : Ident) (st : MState) :
    (dependency_collection m st).effectStack = st.effectStack := by
  unfold dependency_collection
  rcases st.memoStack.head? with _ | caller
  · rfl
  · dsimp only
    split <;> rfl

theorem dependency_collection_memoStack (m : Ident) (st : MState) :
    (dependency_collection m st).memoStack = st.memoStack := by
  unfold dependency_collection
  rcases st.memoStack.head? with _ | caller
  · rfl
  · dsimp only
    split <;> rfl

theorem dependency_collection_execCount (m : Ident) (st : MState) :
    (dependency_collection m st).execCount = st.execCount := by
  unfold dependency_collection
  rcases st.memoStack.head? with _ | caller
  · rfl
  · dsimp only
    split <;> rfl

/-! ### How `Memo::get` behaves on a miss and on a well-typed hit -/

theorem memoGet_miss {st : MState} {m : Ident} (ty f : Ident → Nat)
    (hcoll : collectingTop st.effectStack = false)
    (hlk : cacheLookup m st.cache = none) :
    memoGet ty f m st =
      (f m, { dependency_collection m st with
              cache := store_in_cache m (ty m) (f m) st.cache,
              execCount := fun x =>
                if x = m then st.execCount x + 1 else st.execCount x,
              memoStack := st.memoStack }) := by
  have ht := touch_not_collecting_miss hcoll hlk (ty m)
  unfold memoGet
  rw [dependency_collection_cache, dependency_collection_effectStack, ht]
  simp [memo_stack_push, dependency_collection_memoStack, dependency_collection_execCount]

theorem memoGet_hit {st : MState} {m : Ident} {w : CVal} (ty f : Ident → Nat)
    (hcoll : collectingTop st.effectStack = false)
    (hlk : cacheLookup m st.cache = some w) (hty : w.ty = ty m) :
    memoGet ty f m st =
      (w.val, { dependency_collection m st with
                cache := (m, w) :: cacheEraseKey m st.cache,
                memoStack := st.memoStack }) := by
  have ht := touch_not_collecting_hit hcoll hlk (ty m)
  unfold memoGet
  rw [dependency_collection_cache, dependency_collection_effectStack, ht]
  simp [hty, memo_stack_push, dependency_collection_memoStack]

/-! ### Reachability through still-alive dependent edges -/

/-- `Reach deps alive ds k`: starting from the dependents list `ds`, the
observable `k` is reached by a chain of dependent edges passing only
still-alive entries — the set of cache keys the invalidation traversal
removes. -/
inductive Reach (deps : Ident → List Ident) (alive : Ident → Bool) :
    List Ident → Ident → Prop
  | head {ds : List Ident} {d : Ident} :
      d ∈ ds → alive d = true → Reach deps alive ds d
  | step {ds : List Ident} {m d : Ident} :
      Reach deps alive ds m → d ∈ deps m → alive d = true → Reach deps alive ds d

theorem reach_origin {deps : Ident → List Ident} {alive : Ident → Bool}
    {ds : List Ident} {k : Ident} (h : Reach deps alive ds k) :
    ∃ d, d ∈ ds ∧ alive d = true := by
  induction h with
  | head hmem ha => exact ⟨_, hmem, ha⟩
  | step _ _ _ ih => exact ih

theorem reach_nil {deps : Ident → List Ident} {alive : Ident → Bool} {k : Ident} :
    ¬ Reach deps alive [] k := fun h => by
  obtain ⟨d, hd, _⟩ := reach_origin h
  exact absurd hd (List.not_mem_nil d)

theorem reach_trans_list {deps : Ident → List Ident} {alive : Ident → Bool}
    {L ds : List Ident} {k : Ident}
    (hL : ∀ x ∈ L, alive x = true → Reach deps alive ds x)
    (h : Reach deps alive L k) : Reach deps alive ds k := by
  induction h with
  | head hmem ha => exact hL _ hmem ha
  | step _ hmem ha ih => exact Reach.step ih hmem ha

theorem reach_split {deps : Ident → List Ident} {alive : Ident → Bool}
    {ds0 : List Ident} {k : Ident} (h : Reach deps alive ds0 k) :
    ∀ d ds, ds0 = d :: ds →
      (k = d ∧ alive d = true) ∨
      (alive d = true ∧ Reach deps alive (deps d) k) ∨
      Reach deps alive ds k := by
  induction h with
  | head hmem ha =>
    intro d ds hE
    subst hE
    rcases List.mem_cons.mp hmem with h1 | h2
    · exact Or.inl ⟨h1, h1 ▸ ha⟩
    · exact Or.inr (Or.inr (Reach.head h2 ha))
  | step hm hmem ha ih =>
    intro d ds hE
    rcases ih d ds hE with ⟨hmd, had⟩ | ⟨had, hR⟩ | hR
    · exact Or.inr (Or.inl ⟨had, Reach.head (hmd ▸ hmem) ha⟩)
    · exact Or.inr (Or.inl ⟨had, Reach.step hR hmem ha⟩)
    · exact Or.inr (Or.inr (Reach.step hR hmem ha))

theorem reach_cons_iff {deps : Ident → List Ident} {alive : Ident → Bool}
    {d : Ident} {ds : List Ident} {k : Ident} (had : alive d = true) :
    Reach deps alive (d :: ds) k ↔
      (k = d ∨ Reach deps alive (deps d) k ∨ Reach deps alive ds k) := by
  constructor
  · intro h
    rcases reach_split h d ds rfl with ⟨h1, _⟩ | ⟨_, h2⟩ | h3
    · exact Or.inl h1
    · exact Or.inr (Or.inl h2)
    · exact Or.inr (Or.inr h3)
  · rintro (rfl | h | h)
    · exact Reach.head (List.mem_cons_self k ds) had
    · exact reach_trans_list
        (fun x hx ha => Reach.step (Reach.head (List.mem_cons_self d ds) had) hx ha) h
    · exact reach_trans_list
        (fun x hx ha => Reach.head (List.mem_cons_of_mem d hx) ha) h

theorem reach_cons_dead {deps : Ident → List Ident} {alive : Ident → Bool}
    {d : Ident} {ds : List Ident} {k : Ident} (had : alive d = false) :
    Reach deps alive (d :: ds) k ↔ Reach deps alive ds k := by
  constructor
  · intro h
    rcases reach_split h d ds rfl with ⟨_, h1⟩ | ⟨h1, _⟩ | h3
    · rw [had] at h1; exact absurd h1 Bool.false_ne_true
    · rw [had] at h1; exact absurd h1 Bool.false_ne_true
    · exact h3
  · exact reach_trans_list
      (fun x hx ha => Reach.head (List.mem_cons_of_mem d hx) ha)

/-- Two dependents tables that agree on still-alive membership.  The
invalidation traversal only prunes dead entries, so every intermediate table
it produces is `AEq` to the initial one, and reachability is preserved. -/
def AEq (alive : Ident → Bool) (d1 d2 : Ident → List Ident) : Prop :=
  ∀ x k, alive k = true → (k ∈ d1 x ↔ k ∈ d2 x)

theorem aeq_refl (alive : Ident → Bool) (d1 : Ident → List Ident) :
    AEq alive d1 d1 :=
  fun _ _ _ => Iff.rfl

theorem aeq_symm {alive : Ident → Bool} {d1 d2 : Ident → List Ident}
    (h : AEq alive d1 d2) : AEq alive d2 d1 :=
  fun x k hk => (h x k hk).symm

theorem aeq_trans {alive : Ident → Bool} {d1 d2 d3 : Ident → List Ident}
    (h1 : AEq alive d1 d2) (h2 : AEq alive d2 d3) : AEq alive d1 d3 :=
  fun x k hk => (h1 x k hk).trans (h2 x k hk)

theorem reach_congr {alive : Ident → Bool} {d1 d2 : Ident → List Ident}
    (hA : AEq alive d1 d2) {ds : List Ident} {k : Ident} :
    Reach d1 alive ds k → Reach d2 alive ds k := by
  intro h
  induction h with
  | head hmem ha => exact Reach.head hmem ha
  | step _ hmem ha ih => exact Reach.step ih ((hA _ _ ha).mp hmem) ha

theorem reach_congr_iff {alive : Ident → Bool} {d1 d2 : Ident → List Ident}
    (hA : AEq alive d1 d2) {ds : List Ident} {k : Ident} :
    Reach d1 alive ds k ↔ Reach d2 alive ds k :=
  ⟨reach_congr hA, reach_congr (aeq_symm hA)⟩

/-! ### The invalidation traversal characterised -/

/-- What one run of the retain-based invalidation traversal does, provided it
completed (`some`): the retained list is the alive-filtered input, value and
effects are untouched, dependents lists only lose dead entries, the trace
grows by removal events for exactly the alive-reachable dependents, and
exactly their cache entries disappear. -/
theorem invalidateFrom_spec (alive : Ident → Bool) :
    ∀ (fuel : Nat) (ds : List Ident) (st : SState) (kept : List Ident) (st' : SState),
      invalidateFrom alive fuel ds st = some (kept, st') →
      kept = ds.filter (fun d => alive d) ∧
      st'.value = st.value ∧
      st'.effects = st.effects ∧
      AEq alive st'.dependents st.dependents ∧
      (∃ tr, st'.trace = st.trace ++ tr ∧
        (∀ ev ∈ tr, ∃ m, ev = Event.removed m) ∧
        (∀ m, Event.removed m ∈ tr ↔ Reach st.dependents alive ds m)) ∧
      (∀ kv : Ident × CVal, kv ∈ st'.cache ↔
        kv ∈ st.cache ∧ ¬ Reach st.dependents alive ds kv.1) := by
  intro fuel
  induction fuel with
  | zero =>
    intro ds st kept st' h
    simp [invalidateFrom] at h
  | succ fuel IH =>
    intro ds st kept st' h
    cases ds with
    | nil =>
      simp only [invalidateFrom, Option.some.injEq, Prod.mk.injEq] at h
      obtain ⟨rfl, rfl⟩ := h
      refine ⟨rfl, rfl, rfl, aeq_refl _ _,
        ⟨[], by simp, by simp, fun m => iff_of_false (List.not_mem_nil _) reach_nil⟩,
        fun kv => ⟨fun hin => ⟨hin, reach_nil⟩, fun hin => hin.1⟩⟩
    | cons d ds =>
      simp only [invalidateFrom] at h
      split at h
      · -- alive d = true
        rename_i hd
        split at h
        · exact Option.noConfusion h
        · rename_i kept1 st2 heq1
          split at h
          · exact Option.noConfusion h
          · rename_i kept2 st4 heq2
            simp only [Option.some.injEq, Prod.mk.injEq] at h
            obtain ⟨rfl, rfl⟩ := h
            have S1 := IH _ _ _ _ heq1
            have S2 := IH _ _ _ _ heq2
            dsimp only at S1 S2
            obtain ⟨hk1, hv1, he1, hA1, ⟨tr1, htr1, hsh1, hm1⟩, hc1⟩ := S1
            obtain ⟨hk2, hv2, he2, hA2, ⟨tr2, htr2, hsh2, hm2⟩, hc2⟩ := S2
            -- the dependents table after the inner traversal and the
            -- write-back of the pruned list agrees on alive entries with
            -- the initial one
            have hA3 : AEq alive
                (fun y => if y = d then kept1 else st2.dependents y)
                st.dependents := by
              intro x k hk
              by_cases hx : x = d
              · subst hx
                simp [hk1, List.mem_filter, hk]
              · simp only [if_neg hx]
                exact hA1 x k hk
            refine ⟨?_, ?_, ?_, ?_, ?_, ?_⟩
            · simp [List.filter_cons, hd, hk2]
            · exact hv2.trans hv1
            · exact he2.trans he1
            · exact aeq_trans hA2 hA3
            · refine ⟨Event.removed d :: (tr1 ++ tr2), ?_, ?_, ?_⟩
              · rw [htr2, htr1]
                simp [List.append_assoc]
              · intro ev hev
                rcases List.mem_cons.mp hev with h1 | h1
                · exact ⟨d, h1⟩
                · rcases List.mem_append.mp h1 with h2 | h2
                  · exact hsh1 ev h2
                  · exact hsh2 ev h2
              · intro m
                have hm2' : Event.removed m ∈ tr2 ↔ Reach st.dependents alive ds m :=
                  (hm2 m).trans (reach_congr_iff hA3)
                rw [reach_cons_iff hd]
                simp only [List.mem_cons, List.mem_append, Event.removed.injEq,
                  hm1 m, hm2']
            · intro kv
              have hc2' := hc2 kv
              have hc1' := hc1 kv
              rw [reach_congr_iff hA3] at hc2'
              rw [hc2', hc1', reach_cons_iff hd]
              have hmem : kv ∈ remove_from_cache d st.cache ↔ kv ∈ st.cache ∧ kv.1 ≠ d :=
                mem_cacheEraseKey
              rw [hmem]
              tauto
      · -- alive d = false: the dead entry is pruned, nothing else happens here
        rename_i hd
        have hd' : alive d = false := by
          simpa using hd
        have S := IH _ _ _ _ h
        obtain ⟨hk, hv, he, hA, ⟨tr, htr, hsh, hm⟩, hc⟩ := S
        refine ⟨?_, hv, he, hA, ⟨tr, htr, hsh, ?_⟩, ?_⟩
        · simp [List.filter_cons, hd', hk]
        · intro m
          rw [hm, reach_cons_dead hd']
        · intro kv
          rw [hc kv, reach_cons_dead hd']

/-! ### The claims about `Signal::set` and `invalidate` -/

/-- C1: for a signal whose current value differs from the written one,
`Signal::set` performs, in this order: (1) invalidation — removal events for
exactly the still-alive transitive dependents of the signal, pruning dead
weak references from the signal's dependents list, and exactly those cache
entries disappear; (2) it stores the new value; (3) it replays each
still-alive registered effect in untracked mode (`collecting = false`) in
registration order, pruning dead effect references; and it returns `true`.
The hypothesis that `signalSet` returned at all rules out the divergent
(cyclic-graph) case the source cannot complete either. -/
theorem signal_set_changed_behaviour (alive effAlive : Ident → Bool) (fuel : Nat)
    (sigId : Ident) (v : Nat) (st : SState)
    (hne : st.value ≠ v) (htr : st.trace = [])
    (hfuel : (signalSet alive effAlive fuel sigId v st).isSome = true) :
    ∃ st', signalSet alive effAlive fuel sigId v st = some (true, st') ∧
      st'.value = v ∧
      st'.effects = st.effects.filter (fun e => effAlive e) ∧
      st'.dependents sigId = (st.dependents sigId).filter (fun d => alive d) ∧
      (∃ invTr, st'.trace = invTr ++ [Event.stored] ++
          ((st.effects.filter fun e => effAlive e).map fun e => Event.ranEffect e false) ∧
        (∀ ev ∈ invTr, ∃ m, ev = Event.removed m) ∧
        (∀ m, Event.removed m ∈ invTr ↔
          Reach st.dependents alive (st.dependents sigId) m)) ∧
      (∀ kv : Ident × CVal, kv ∈ st'.cache ↔
        kv ∈ st.cache ∧ ¬ Reach st.dependents alive (st.dependents sigId) kv.1) := by
  unfold signalSet at hfuel ⊢
  rw [if_neg hne] at hfuel ⊢
  rcases hinv : observableInvalidate alive fuel sigId st with _ | st1
  · rw [hinv] at hfuel
    simp at hfuel
  · unfold observableInvalidate at hinv
    rcases hrec : invalidateFrom alive fuel (st.dependents sigId) st with _ | p
    · rw [hrec] at hinv
      exact Option.noConfusion hinv
    · obtain ⟨kept, stI⟩ := p
      rw [hrec] at hinv
      obtain ⟨hk, hv, he, hA, ⟨tr, htrI, hsh, hmem⟩, hcache⟩ :=
        invalidateFrom_spec alive fuel (st.dependents sigId) st kept stI hrec
      injection hinv with hinv
      subst hinv
      refine ⟨_, rfl, ?_, ?_, ?_, ?_, ?_⟩
      · simp [flush_effects]
      · simp [flush_effects, he]
      · simp [flush_effects, hk]
      · refine ⟨tr, ?_, hsh, hmem⟩
        simp [flush_effects, he, htrI, htr]
      · intro kv
        simpa [flush_effects] using hcache kv

/-- Witness for C1 at a concrete signal with one alive dependent memo and one
alive effect. -/
theorem signal_set_changed_behaviour_witness :
    ∃ st', signalSet (fun _ => true) (fun _ => true) 2 0 1
        { value := 0, dependents := fun x => if x = 0 then [1] else [],
          effects := [7], cache := [(1, ⟨0, 5⟩)], trace := [] } = some (true, st') ∧
      st'.value = 1 := by
  obtain ⟨st', h1, h2, _⟩ :=
    signal_set_changed_behaviour (fun _ => true) (fun _ => true) 2 0 1
      { value := 0, dependents := fun x => if x = 0 then [1] else [],
        effects := [7], cache := [(1, ⟨0, 5⟩)], trace := [] }
      (by decide) rfl (by decide)
  exact ⟨st', h1, h2⟩

/-- C4: writing the value a signal already holds returns `false` and is a
complete no-op — the resulting state (value, dependents lists, effects list,
result cache, and the event trace, hence no invalidation and no effect
replay) is exactly the input state. -/
theorem signal_set_unchanged_noop (alive effAlive : Ident → Bool) (fuel : Nat)
    (sigId : Ident) (v : Nat) (st : SState) (h : st.value = v) :
    signalSet alive effAlive fuel sigId v st = some (false, st) := by
  unfold signalSet
  rw [if_pos h]

/-- Witness for C4 at a concrete signal holding the written value. -/
theorem signal_set_unchanged_noop_witness :
    signalSet (fun _ => true) (fun _ => true) 3 0 5
      { value := 5, dependents := fun _ => [], effects := [],
        cache := [(9, ⟨0, 1⟩)], trace := [] } =
    some (false,
      { value := 5, dependents := fun _ => [], effects := [],
        cache := [(9, ⟨0, 1⟩)], trace := [] }) :=
  signal_set_unchanged_noop (fun _ => true) (fun _ => true) 3 0 5 _ rfl

/-- A memo with a cached entry and no dependents, used to settle C5. -/
def c5SoloState : SState :=
  { value := 0, dependents := fun _ => [], effects := [],
    cache := [(1, ⟨0, 42⟩)], trace := [] }

/-- C5 counterexample: the claim that `invalidate()` removes the invoked memo
itself from the Result Cache is false — invoking it on a memo that has a
cache entry and no dependents leaves the entry in place (`invalidate` only
removes its dependents' entries; the caller removed the memo's own entry
before recursing). -/
theorem memo_invalidate_self_cex :
    ¬ (∀ (x : Ident) (st : SState) (fuel : Nat) (st' : SState),
        observableInvalidate (fun _ => true) fuel x st = some st' →
        cacheLookup x st'.cache = none) := by
  intro h
  have h2 := h 1 c5SoloState 1 _ rfl
  exact absurd h2 (by decide)

/-- C5 (amended): `invalidate()` prunes dead weak references from the memo's
dependents list and removes from the Result Cache the entries of exactly the
still-alive transitive dependents of the memo; the memo's own entry is not
touched by its `invalidate()` (its upstream caller removes it before
recursing into `invalidate`). -/
theorem memo_invalidate_removes_dependents (alive : Ident → Bool) (fuel : Nat)
    (x : Ident) (st st' : SState)
    (h : observableInvalidate alive fuel x st = some st') :
    st'.dependents x = (st.dependents x).filter (fun d => alive d) ∧
    (∀ kv : Ident × CVal, kv ∈ st'.cache ↔
      kv ∈ st.cache ∧ ¬ Reach st.dependents alive (st.dependents x) kv.1) := by
  unfold observableInvalidate at h
  rcases hrec : invalidateFrom alive fuel (st.dependents x) st with _ | p
  · rw [hrec] at h
    exact Option.noConfusion h
  · obtain ⟨kept, stI⟩ := p
    rw [hrec] at h
    obtain ⟨hk, _, _, _, _, hcache⟩ :=
      invalidateFrom_spec alive fuel (st.dependents x) st kept stI hrec
    injection h with h
    subst h
    exact ⟨by simp [hk], hcache⟩

/-- Witness for the amended C5 at a memo with one alive dependent. -/
theorem memo_invalidate_removes_dependents_witness :
    ∃ st', observableInvalidate (fun _ => true) 3 1
        { value := 0, dependents := fun x => if x = 1 then [2] else [],
          effects := [], cache := [(1, ⟨0, 10⟩), (2, ⟨0, 20⟩)], trace := [] } = some st' ∧
      st'.dependents 1 = [2] :=
  ⟨_, rfl,
    (memo_invalidate_removes_dependents (fun _ => true) 3 1
        { value := 0, dependents := fun x => if x = 1 then [2] else [],
          effects := [], cache := [(1, ⟨0, 10⟩), (2, ⟨0, 20⟩)], trace := [] }
        _ rfl).1.trans (by decide)⟩

/-! ### The claims about the cache lookup and the memoization of `Memo::get` -/

/-- C2: while the top entry of the reaction stack has `collecting = true`,
a memo cache lookup is forced to miss — `touch` returns no value and the
entry under the key is removed — so `Memo::get` re-executes the memo's
closure (its execution count rises). -/
theorem touch_collecting_forces_miss (ty f : Ident → Nat) (m : Ident) (st : MState)
    (h : collectingTop st.effectStack = true) :
    touch (ty m) m st.effectStack st.cache = (none, remove_from_cache m st.cache) ∧
    cacheLookup m (touch (ty m) m st.effectStack st.cache).2 = none ∧
    (memoGet ty f m st).1 = f m ∧
    (memoGet ty f m st).2.execCount m = st.execCount m + 1 := by
  have ht : touch (ty m) m st.effectStack st.cache =
      (none, remove_from_cache m st.cache) := by
    simp [touch, h]
  refine ⟨ht, ?_, ?_, ?_⟩
  · rw [ht]
    exact cacheLookup_eraseKey_self m st.cache
  · unfold memoGet
    rw [dependency_collection_cache, dependency_collection_effectStack, ht]
  · unfold memoGet
    rw [dependency_collection_cache, dependency_collection_effectStack, ht]
    simp [dependency_collection_execCount]

/-- Witness for C2: a collecting reaction is on top of the stack, memo 1 has
a cached entry, and the lookup still misses while removing the entry. -/
theorem touch_collecting_forces_miss_witness :
    touch 0 1 [⟨5, true⟩] [(1, ⟨0, 9⟩)] = (none, []) :=
  ((touch_collecting_forces_miss (fun _ => 0) (fun _ => 3) 1
    { cache := [(1, ⟨0, 9⟩)], effectStack := [⟨5, true⟩], memoStack := [],
      dependents := fun _ => [], execCount := fun _ => 0 } rfl).1).trans (by decide)

/-- C3: with no collecting reaction on top of the stack and no cache entry
under the memo's key, two consecutive `Memo::get` calls on a memo with a
pure closure return equal values, the closure body runs exactly once across
the two calls, and the second call runs it zero times (it is served from the
Result Cache). -/
theorem memo_get_memoizes (ty f : Ident → Nat) (m : Ident) (st : MState)
    (hcoll : collectingTop st.effectStack = false)
    (hfresh : cacheLookup m st.cache = none) :
    (memoGet ty f m ((memoGet ty f m st).2)).1 = (memoGet ty f m st).1 ∧
    ((memoGet ty f m ((memoGet ty f m st).2)).2).execCount m = st.execCount m + 1 ∧
    ((memoGet ty f m ((memoGet ty f m st).2)).2).execCount m
      = ((memoGet ty f m st).2).execCount m := by
  have h1 := memoGet_miss ty f hcoll hfresh
  have hcoll2 : collectingTop ((memoGet ty f m st).2).effectStack = false := by
    rw [h1]
    simpa [dependency_collection_effectStack] using hcoll
  have hlk2 : cacheLookup m ((memoGet ty f m st).2).cache = some ⟨ty m, f m⟩ := by
    rw [h1]
    simp [store_in_cache, cacheLookup_put_self]
  have h2 := memoGet_hit ty f hcoll2 hlk2 rfl
  refine ⟨?_, ?_, ?_⟩
  · rw [h2, h1]
  · rw [h2]
    simp [dependency_collection_execCount, h1]
  · rw [h2]
    simp [dependency_collection_execCount, h1]

/-- The initial memo-side state: empty cache, empty stacks, no dependents. -/
def emptyMState : MState :=
  { cache := [], effectStack := [], memoStack := [],
    dependents := fun _ => [], execCount := fun _ => 0 }

/-- Witness for C3 at a fresh memo with a pure closure. -/
theorem memo_get_memoizes_witness :
    ((memoGet (fun _ => 0) (fun i => i + 10) 3
        ((memoGet (fun _ => 0) (fun i => i + 10) 3 emptyMState).2)).2).execCount 3
      = emptyMState.execCount 3 + 1 :=
  (memo_get_memoizes (fun _ => 0) (fun i => i + 10) 3 emptyMState rfl rfl).2.1

/-- C7: a cache lookup returns a value only when an entry is present under
the key and its stored value has the requested type; an entry of the wrong
type behaves exactly like a miss — `touch` (a total operation, with no error
path) returns no value. -/
theorem touch_type_guard (ty : Nat) (k : Ident) (es : EffectStack) (c : Cache) :
    (∀ v : Nat, (touch ty k es c).1 = some v →
      ∃ w : CVal, cacheLookup k c = some w ∧ w.ty = ty ∧ w.val = v) ∧
    (∀ w : CVal, cacheLookup k c = some w → w.ty ≠ ty → (touch ty k es c).1 = none) := by
  constructor
  · intro v hv
    cases hB : collectingTop es with
    | true => simp [touch, hB] at hv
    | false =>
      rcases hl : cacheLookup k c with _ | w
      · rw [touch_not_collecting_miss hB hl ty] at hv
        exact absurd hv (by simp)
      · rw [touch_not_collecting_hit hB hl ty] at hv
        dsimp only at hv
        by_cases hwt : w.ty = ty
        · rw [if_pos hwt] at hv
          exact ⟨w, rfl, hwt, Option.some.inj hv⟩
        · rw [if_neg hwt] at hv
          exact absurd hv (by simp)
  · intro w hw hne
    cases hB : collectingTop es with
    | true => simp [touch, hB]
    | false =>
      rw [touch_not_collecting_hit hB hw ty]
      dsimp only
      rw [if_neg hne]

/-- Witness for C7: an entry of type tag 5 under key 1, looked up at type
tag 6, is reported absent. -/
theorem touch_type_guard_witness :
    (touch 6 1 [] [(1, ⟨5, 9⟩)]).1 = none :=
  (touch_type_guard 6 1 [] [(1, ⟨5, 9⟩)]).2 ⟨5, 9⟩ rfl (by decide)

/-- C10: outside a collecting pass, a lookup that finds an entry of the
wrong type returns absent, yet the entry is not removed — it is promoted to
the most-recently-used position — and a later lookup under the same key at
the original type still hits. -/
theorem touch_mismatch_promotes (ty1 ty2 v : Nat) (k : Ident) (es : EffectStack)
    (c : Cache) (hcoll : collectingTop es = false)
    (hlk : cacheLookup k c = some ⟨ty1, v⟩) (hne : ty1 ≠ ty2) :
    (touch ty2 k es c).1 = none ∧
    (touch ty2 k es c).2 = (k, ⟨ty1, v⟩) :: cacheEraseKey k c ∧
    cacheLookup k (touch ty2 k es c).2 = some ⟨ty1, v⟩ ∧
    (touch ty1 k es (touch ty2 k es c).2).1 = some v := by
  have ht2 : touch ty2 k es c = (none, (k, ⟨ty1, v⟩) :: cacheEraseKey k c) := by
    rw [touch_not_collecting_hit hcoll hlk ty2]
    simp [hne]
  have hlk2 : cacheLookup k ((k, ⟨ty1, v⟩) :: cacheEraseKey k c) = some ⟨ty1, v⟩ :=
    cacheLookup_cons_self k ⟨ty1, v⟩ (cacheEraseKey k c)
  refine ⟨by rw [ht2], by rw [ht2], ?_, ?_⟩
  · rw [ht2]
    exact hlk2
  · rw [ht2, touch_not_collecting_hit hcoll hlk2 ty1]
    simp

/-- Witness for C10: key 1 holds type tag 5; a lookup at tag 7 misses but a
following lookup at tag 5 still hits. -/
theorem touch_mismatch_promotes_witness :
    (touch 7 1 [] [(2, ⟨9, 9⟩), (1, ⟨5, 11⟩)]).1 = none ∧
    (touch 5 1 [] ((touch 7 1 [] [(2, ⟨9, 9⟩), (1, ⟨5, 11⟩)]).2)).1 = some 11 := by
  have h := touch_mismatch_promotes 5 7 11 1 [] [(2, ⟨9, 9⟩), (1, ⟨5, 11⟩)]
    rfl (by decide) (by decide)
  exact ⟨h.1, h.2.2.2⟩

/-! ### The claims about the two context stacks -/

/-- C8: `effect_pop` returns normally exactly when the top of the reaction
stack carries the same effect identity and the same collecting flag that are
being popped (so an empty stack, a different identity, or a different flag
panic), and on success it removes precisely that matching top entry. -/
theorem effect_pop_pairing (e : Ident) (coll : Bool) (s : EffectStack) :
    (exOk (effect_pop e coll s) = true ↔ s.head? = some ⟨e, coll⟩) ∧
    (∀ rest, effect_pop e coll s = .ok rest → s = ⟨e, coll⟩ :: rest) := by
  constructor
  · cases s with
    | nil => simp [effect_pop, exOk]
    | cons top rest =>
      obtain ⟨te, tc⟩ := top
      by_cases h1 : te = e
      · by_cases h2 : tc = coll
        · subst h1
          subst h2
          simp [effect_pop, exOk]
        · simp [effect_pop, h1, h2, exOk, EffectStackEntry.mk.injEq]
      · simp [effect_pop, h1, exOk, EffectStackEntry.mk.injEq]
  · intro rest hrest
    cases s with
    | nil => simp [effect_pop] at hrest
    | cons top rest2 =>
      obtain ⟨te, tc⟩ := top
      by_cases h1 : te = e
      · by_cases h2 : tc = coll
        · subst h1
          subst h2
          simp [effect_pop] at hrest
          rw [hrest]
        · simp [effect_pop, h1, h2] at hrest
      · simp [effect_pop, h1] at hrest

/-- Witness for C8: popping the matching entry succeeds and removes it. -/
theorem effect_pop_pairing_witness :
    [(⟨3, true⟩ : EffectStackEntry)] = (⟨3, true⟩ : EffectStackEntry) :: [] :=
  (effect_pop_pairing 3 true [⟨3, true⟩]).2 [] rfl

/-- C9 counterexample: popping the empty memo stack is not fatal — the
operation returns normally (with no identity), refuting the claim that it
cannot return normally. -/
theorem memo_pop_empty_not_fatal_cex :
    ¬ (exOk (memo_stack_pop []) = false) := by
  decide

/-- C9 (amended): `pop` on the memo stack is an unchecked `Vec::pop` — on an
empty stack it returns normally with no identity (no panic, no precondition
enforcement), and otherwise it returns the top entry and the rest. -/
theorem memo_pop_total :
    memo_stack_pop ([] : List Ident) = .ok (none, []) ∧
    ∀ (x : Ident) (xs : List Ident), memo_stack_pop (x :: xs) = .ok (some x, xs) :=
  ⟨rfl, fun _ _ => rfl⟩

/-! ### The 129-memo capacity scenario (C6) -/

/-- Result type tags of the 129 independent memos of the capacity
scenario (they all share one concrete result type). -/
def c6ty : Ident → Nat := fun _ => 0

/-- The pure closures of the capacity scenario: memo `i` computes `i`. -/
def c6f : Ident → Nat := fun i => i

/-- The state after constructing 129 independent memos (identities
1 .. 129) and calling `get()` once on each, in construction order, starting
from an empty engine. -/
def c6final : MState :=
  (List.range' 1 129).foldl (fun st i => (memoGet c6ty c6f i st).2) emptyMState

set_option maxRecDepth 10000 in
set_option maxHeartbeats 4000000 in
/-- C6 counterexample: after reading each of the 129 memos once, the
number of them still holding a cache entry is 128 (the cache capacity), not
127 as the claim counts — only the single least-recently-read memo was
evicted. -/
theorem memo_capacity_127_cex :
    ¬ (((List.range' 1 129).filter
        (fun i => (cacheLookup i c6final.cache).isSome)).length = 127) := by
  decide

set_option maxRecDepth 10000 in
set_option maxHeartbeats 4000000 in
/-- C6 (amended): reading 129 independent memos once each evicts exactly
the least-recently-read memo's entry — its next `get()` re-executes its
closure — while the other 128 memos stay cached and their next `get()` does
not re-execute the closure. -/
theorem memo_capacity_scenario :
    cacheLookup 1 c6final.cache = none ∧
    (memoGet c6ty c6f 1 c6final).2.execCount 1 = c6final.execCount 1 + 1 ∧
    ((List.range' 1 129).filter
        (fun i => (cacheLookup i c6final.cache).isSome)).length = 128 ∧
    (∀ i ∈ List.range' 2 128, cacheLookup i c6final.cache = some ⟨0, i⟩) ∧
    (∀ i ∈ List.range' 2 128, (memoGet c6ty c6f i c6final).2.execCount i
        = c6final.execCount i) := by
  have hcoll : collectingTop c6final.effectStack = false := by decide
  have h1 : cacheLookup 1 c6final.cache = none := by decide
  have h3 : ∀ i ∈ List.range' 2 128, cacheLookup i c6final.cache = some ⟨0, i⟩ := by
    decide
  refine ⟨h1, ?_, by decide, h3, ?_⟩
  · rw [memoGet_miss c6ty c6f hcoll h1]
    simp
  · intro i hi
    have hg := memoGet_hit c6ty c6f hcoll (h3 i hi) rfl
    rw [hg]
    simp [dependency_collection_execCount]

end ReactiveCache
